import Mathlib

/-!
Verification of the event-log core in `zerofold-reality-os/src/index.ts`
(`RealityKernel` and `RealityBranch`): a branchable append-only event log
with deterministic state materialization, retroactive insertion, and an
id-based diff/merge protocol.

The embedding is value-based: the mutable TypeScript arrays become `List`
fields, and the mutating methods (`append`, `retroInsert`) return the
updated record.  Timestamps (`t`, a JS number used only via `===`, `-`
and `<=` on integral demo values) are modelled as `Int`.  Payloads are
opaque to the core and modelled as `String`.  The caller-defined `State`
type is a type parameter `σ`; the literal empty object `{}` passed to
`Array.prototype.reduce` is represented by an `init : σ` argument.
`Array.prototype.sort` (ES2019: a stable sort consistent with the
comparator) is modelled as `List.mergeSort` with the boolean relation
"comparator result is nonpositive".
-/

/-- Line 1 of index.ts: `type Event = { id: string; t: number; type: string; payload: unknown }`. -/
structure Event where
  id : String
  t : Int
  type : String
  payload : String
deriving DecidableEq

/-- Model of the host function `String.prototype.localeCompare` used by the
sort comparator (index.ts lines 25 and 40).  ECMA-262 leaves the ordering of
`localeCompare` implementation- and locale-defined; this model uses the fixed
code-point order on strings, which is the order §4.2.1 of the spec
prescribes.  The discrepancy between this model and the actual host
behaviour is exactly the subject of claim C5. -/
def localeCompare (x y : String) : Int :=
  if x < y then -1 else if x = y then 0 else 1

/-- The comparator passed to `Array.prototype.sort` in `state()` and
`merge()`: `(a, b) => (a.t === b.t ? a.id.localeCompare(b.id) : a.t - b.t)`. -/
def eventCmp (a b : Event) : Int :=
  if a.t = b.t then localeCompare a.id b.id else a.t - b.t

/-- Boolean relation "a may precede b": the comparator result is nonpositive.
This is the relation with respect to which the ES2019 stable sort orders the
array. -/
def eventLe (a b : Event) : Bool :=
  decide (eventCmp a b ≤ 0)

/-- Model of `[...xs].sort(cmp)`: a stable sort of the list with respect to
the comparator, acting on a copy. -/
def jsSortEvents (l : List Event) : List Event :=
  List.mergeSort l eventLe

/-- `RealityBranch` (index.ts lines 20-44): a private event list plus the
reducer, here over an abstract state type `σ`. -/
structure RealityBranch (σ : Type) where
  log : List Event
  reduce : σ → Event → σ

/-- `RealityKernel` (index.ts lines 5-18): the append-only store, holding the
canonical event list and the reducer supplied at construction. -/
structure RealityKernel (σ : Type) where
  events : List Event
  reduce : σ → Event → σ

/-- `append(event)` (index.ts lines 9-11): push the event onto the end of the
internal log. -/
def RealityKernel.append {σ : Type} (k : RealityKernel σ) (e : Event) : RealityKernel σ :=
  { k with events := k.events ++ [e] }

/-- The filter predicate used by `fork(untilT?)`: `e.t <= cut` where
`cut = untilT ?? Number.POSITIVE_INFINITY`; the `none` case is the infinite
cutoff, which every event satisfies. -/
def forkKeep (untilT : Option Int) : Event → Bool :=
  fun e =>
    match untilT with
    | none => true
    | some c => decide (e.t ≤ c)

/-- `fork(untilT?)` (index.ts lines 13-17): filter the current events by the
cutoff into a fresh list and build a branch from it together with the same
reducer.  `Array.prototype.filter` allocates a new array, so the branch log
is a value copy of the selected events. -/
def RealityKernel.fork {σ : Type} (k : RealityKernel σ) (untilT : Option Int) :
    RealityBranch σ :=
  ⟨k.events.filter (forkKeep untilT), k.reduce⟩

/-- `state()` (index.ts lines 23-27): copy the log, sort it with the
comparator, and left-fold the reducer over it starting from the initial
state (the literal `{}` of the source, abstracted to `init`). -/
def RealityBranch.state {σ : Type} (b : RealityBranch σ) (init : σ) : σ :=
  (jsSortEvents b.log).foldl b.reduce init

/-- `retroInsert(event)` (index.ts lines 29-31): push onto the private log,
regardless of the timestamp. -/
def RealityBranch.retroInsert {σ : Type} (b : RealityBranch σ) (e : Event) :
    RealityBranch σ :=
  { b with log := b.log ++ [e] }

/-- `diff(other)` (index.ts lines 33-36): collect the ids of this branch and
keep the events of the other log whose id is not among them.  The `Set` of
the source is modelled by membership in the id list. -/
def RealityBranch.diff {σ : Type} (b other : RealityBranch σ) : List Event :=
  other.log.filter (fun e => !((b.log.map Event.id).contains e.id))

/-- `merge(other)` (index.ts lines 38-43): concatenate this log with
`this.diff(other)`, sort with the same comparator, and build a new branch
with the same reducer. -/
def RealityBranch.merge {σ : Type} (b other : RealityBranch σ) : RealityBranch σ :=
  ⟨jsSortEvents (b.log ++ b.diff other), b.reduce⟩

/-- Appending a list of events to the store one at a time, in order. -/
def RealityKernel.appendAll {σ : Type} (k : RealityKernel σ) (es : List Event) :
    RealityKernel σ :=
  es.foldl RealityKernel.append k

/-- Retro-inserting a list of events into a branch one at a time, in order. -/
def RealityBranch.retroInsertAll {σ : Type} (b : RealityBranch σ) (es : List Event) :
    RealityBranch σ :=
  es.foldl RealityBranch.retroInsert b

/-- A store together with the branches previously forked from it, used to
express frame properties: a mutation of the store must leave every
previously created branch untouched. -/
structure KernelWorld (σ : Type) where
  store : RealityKernel σ
  branches : List (RealityBranch σ)

/-- Fork the store and remember the resulting branch. -/
def KernelWorld.doFork {σ : Type} (w : KernelWorld σ) (untilT : Option Int) :
    KernelWorld σ :=
  ⟨w.store, w.branches ++ [w.store.fork untilT]⟩

/-- Append an event to the store of the world.  In the source, `append`
pushes onto the array owned by the kernel; the branch logs are separate
arrays produced by `filter`, so they are not written to. -/
def KernelWorld.doAppend {σ : Type} (w : KernelWorld σ) (e : Event) : KernelWorld σ :=
  ⟨w.store.append e, w.branches⟩

/-- `state()` for a log whose reducer can fail: `Array.prototype.reduce`
runs the reducer left to right and a thrown exception aborts the whole call,
which is the `Except` monad fold.  `Except.error` embeds the thrown value. -/
def stateExc {σ ε : Type} (log : List Event) (reduce : σ → Event → Except ε σ)
    (init : σ) : Except ε σ :=
  (jsSortEvents log).foldlM reduce init

/-! Concrete events, reducers and branches used by witnesses and
counterexamples. -/

/-- An event used twice in one log to exhibit duplicate-id behaviour. -/
def evDup : Event := ⟨"x", 0, "inc", "p"⟩

/-- A reducer that counts the folded events. -/
def countR : Nat → Event → Nat := fun s _ => s + 1

/-- Branch holding the duplicate event twice. -/
def brTwo : RealityBranch Nat := ⟨[evDup, evDup], countR⟩

/-- Branch holding the duplicate event once. -/
def brOne : RealityBranch Nat := ⟨[evDup], countR⟩

/-- Branch with an empty log. -/
def brNil : RealityBranch Nat := ⟨[], countR⟩

/-- First of two distinct events sharing id and timestamp. -/
def evP1 : Event := ⟨"x", 0, "set", "1"⟩

/-- Second of two distinct events sharing id and timestamp. -/
def evP2 : Event := ⟨"x", 0, "set", "2"⟩

/-- A reducer that keeps the payload of the last folded event. -/
def lastR : String → Event → String := fun _ e => e.payload

/-- Event with id "a" at time 1. -/
def ev1 : Event := ⟨"a", 1, "add", "1"⟩

/-- Event with id "b" at time 2. -/
def ev2 : Event := ⟨"b", 2, "add", "2"⟩

/-- Left copy of a colliding id: same id as `evB9`, different fields. -/
def evA9 : Event := ⟨"dup", 1, "alpha", "P"⟩

/-- Right copy of a colliding id: same id as `evA9`, different fields. -/
def evB9 : Event := ⟨"dup", 2, "beta", "Q"⟩

/-- Branch holding the left copy of the colliding id. -/
def brL : RealityBranch Nat := ⟨[evA9], countR⟩

/-- Branch holding the right copy of the colliding id. -/
def brR : RealityBranch Nat := ⟨[evB9], countR⟩

/-- Branch with a single event of id "a", used as a well-formed merge input. -/
def brW1 : RealityBranch Nat := ⟨[ev1], countR⟩

/-- Branch with a single event of id "b", used as a well-formed merge input. -/
def brW2 : RealityBranch Nat := ⟨[ev2], countR⟩

/-- A reducer that fails on every event. -/
def failR : Nat → Event → Except String Nat := fun _ _ => Except.error "boom"

/-- Event with uppercase id, tied timestamp: code-point order puts it first. -/
def evB5 : Event := ⟨"B", 0, "x", ""⟩

/-- Event with lowercase id, tied timestamp: code-point order puts it second. -/
def evA5 : Event := ⟨"a", 0, "x", ""⟩

/-! Helper lemmas about the comparator and the sort. -/

theorem localeCompare_self (x : String) : localeCompare x x = 0 := by
  unfold localeCompare
  rw [if_neg (lt_irrefl x), if_pos rfl]

theorem localeCompare_nonpos_iff (x y : String) :
    localeCompare x y ≤ 0 ↔ (x < y ∨ x = y) := by
  unfold localeCompare
  split_ifs with h1 h2
  · exact iff_of_true (by norm_num) (Or.inl h1)
  · exact iff_of_true le_rfl (Or.inr h2)
  · refine iff_of_false (by norm_num) ?_
    rintro (h | h)
    · exact h1 h
    · exact h2 h

theorem eventLe_true_iff (a b : Event) :
    eventLe a b = true ↔
      (a.t < b.t ∨ (a.t = b.t ∧ (a.id < b.id ∨ a.id = b.id))) := by
  unfold eventLe eventCmp
  rw [decide_eq_true_iff]
  by_cases ht : a.t = b.t
  · rw [if_pos ht, localeCompare_nonpos_iff]
    constructor
    · intro h
      exact Or.inr ⟨ht, h⟩
    · rintro (h | ⟨_, h⟩)
      · omega
      · exact h
  · rw [if_neg ht]
    constructor
    · intro h
      left
      omega
    · rintro (h | ⟨h, _⟩) <;> omega

theorem eventLe_trans (a b c : Event) (h1 : eventLe a b = true)
    (h2 : eventLe b c = true) : eventLe a c = true := by
  rw [eventLe_true_iff] at h1 h2 ⊢
  rcases h1 with h1 | ⟨ht1, hid1⟩
  · rcases h2 with h2 | ⟨ht2, _⟩
    · left; omega
    · left; omega
  · rcases h2 with h2 | ⟨ht2, hid2⟩
    · left; omega
    · refine Or.inr ⟨by omega, ?_⟩
      rcases hid1 with hid1 | hid1 <;> rcases hid2 with hid2 | hid2
      · exact Or.inl (lt_trans hid1 hid2)
      · exact Or.inl (hid2 ▸ hid1)
      · exact Or.inl (hid1 ▸ hid2)
      · exact Or.inr (hid1.trans hid2)

theorem eventLe_total (a b : Event) :
    (eventLe a b || eventLe b a) = true := by
  rw [Bool.or_eq_true, eventLe_true_iff, eventLe_true_iff]
  by_cases ht : a.t = b.t
  · rcases lt_trichotomy a.id b.id with h | h | h
    · exact Or.inl (Or.inr ⟨ht, Or.inl h⟩)
    · exact Or.inl (Or.inr ⟨ht, Or.inr h⟩)
    · exact Or.inr (Or.inr ⟨ht.symm, Or.inl h⟩)
  · rcases lt_or_gt_of_ne ht with h | h
    · exact Or.inl (Or.inl h)
    · exact Or.inr (Or.inl h)

theorem eventLe_antisymm_key (a b : Event) (h1 : eventLe a b = true)
    (h2 : eventLe b a = true) : a.t = b.t ∧ a.id = b.id := by
  rw [eventLe_true_iff] at h1 h2
  rcases h1 with h1 | ⟨ht1, hid1⟩
  · rcases h2 with h2 | ⟨ht2, _⟩ <;> omega
  · rcases h2 with h2 | ⟨ht2, hid2⟩
    · omega
    · refine ⟨ht1, ?_⟩
      rcases hid1 with hid1 | hid1
      · rcases hid2 with hid2 | hid2
        · exact absurd (lt_trans hid1 hid2) (lt_irrefl _)
        · exact hid2.symm
      · exact hid1

theorem jsSortEvents_perm (l : List Event) : (jsSortEvents l).Perm l :=
  List.mergeSort_perm l eventLe

theorem jsSortEvents_sorted (l : List Event) :
    List.Pairwise (fun a b => eventLe a b = true) (jsSortEvents l) :=
  List.sorted_mergeSort eventLe_trans eventLe_total l

theorem jsSortEvents_idem (l : List Event) :
    jsSortEvents (jsSortEvents l) = jsSortEvents l :=
  List.mergeSort_of_sorted (jsSortEvents_sorted l)

/-- Two sorted lists that are permutations of each other are equal, provided
the relation is antisymmetric on the members of the first list. -/
theorem sorted_eq_of_perm (l₁ : List Event) (l₂ : List Event)
    (anti : ∀ x, x ∈ l₁ → ∀ y, y ∈ l₁ → eventLe x y = true → eventLe y x = true → x = y)
    (hp : l₁.Perm l₂)
    (hs₁ : List.Pairwise (fun a b => eventLe a b = true) l₁)
    (hs₂ : List.Pairwise (fun a b => eventLe a b = true) l₂) : l₁ = l₂ := by
  induction l₁ generalizing l₂ with
  | nil => exact (List.Perm.eq_nil hp.symm).symm
  | cons a t ih =>
    cases l₂ with
    | nil => exact absurd hp.eq_nil (by simp)
    | cons b t₂ =>
      have hmem_a : a ∈ b :: t₂ := hp.mem_iff.mp (List.mem_cons_self a t)
      have hab : a = b := by
        rcases List.mem_cons.mp hmem_a with h | h
        · exact h
        · have h1 : eventLe b a = true := (List.pairwise_cons.mp hs₂).1 a h
          have hmem_b : b ∈ a :: t := hp.mem_iff.mpr (List.mem_cons_self b t₂)
          rcases List.mem_cons.mp hmem_b with h2 | h2
          · exact h2.symm
          · have h3 : eventLe a b = true := (List.pairwise_cons.mp hs₁).1 b h2
            exact anti a (List.mem_cons_self a t) b (List.mem_cons.mpr (Or.inr h2)) h3 h1
      subst hab
      have ht2 : t.Perm t₂ := hp.cons_inv
      have hrec : t = t₂ :=
        ih t₂ (fun x hx y hy => anti x (List.mem_cons.mpr (Or.inr hx)) y
              (List.mem_cons.mpr (Or.inr hy)))
          ht2 (List.pairwise_cons.mp hs₁).2 (List.pairwise_cons.mp hs₂).2
      rw [hrec]

/-- A list whose events have pairwise distinct ids admits no nontrivial ties:
the sort relation is antisymmetric on its members. -/
theorem anti_of_nodup_ids (l : List Event) (hn : (l.map Event.id).Nodup) :
    ∀ x, x ∈ l → ∀ y, y ∈ l → eventLe x y = true → eventLe y x = true → x = y :=
  fun x hx y hy h1 h2 =>
    List.inj_on_of_nodup_map hn hx hy ((eventLe_antisymm_key x y h1 h2).2)

/-- On lists with pairwise distinct ids, the sort result depends only on the
multiset of events: permuting the input does not change the sorted list. -/
theorem jsSortEvents_eq_of_perm (l₁ l₂ : List Event) (hp : l₁.Perm l₂)
    (hn : (l₁.map Event.id).Nodup) : jsSortEvents l₁ = jsSortEvents l₂ := by
  have hpp : (jsSortEvents l₁).Perm (jsSortEvents l₂) :=
    ((jsSortEvents_perm l₁).trans hp).trans (jsSortEvents_perm l₂).symm
  have hn1 : ((jsSortEvents l₁).map Event.id).Nodup :=
    (((jsSortEvents_perm l₁).map Event.id).nodup_iff).mpr hn
  exact sorted_eq_of_perm _ _
    (fun x hx y hy => anti_of_nodup_ids _ hn1 x hx y hy)
    hpp (jsSortEvents_sorted l₁) (jsSortEvents_sorted l₂)

/-- Membership characterization of `diff`. -/
theorem mem_diff_iff {σ : Type} (a b : RealityBranch σ) (e : Event) :
    e ∈ a.diff b ↔ (e ∈ b.log ∧ e.id ∉ a.log.map Event.id) := by
  unfold RealityBranch.diff
  rw [List.mem_filter]
  simp [List.elem_iff]

/-- The log of a merge is a permutation of the left log followed by the
id-filtered right log. -/
theorem merge_log_perm {σ : Type} (a b : RealityBranch σ) :
    (a.merge b).log.Perm (a.log ++ a.diff b) :=
  jsSortEvents_perm _

/-- `appendAll` concatenates onto the stored events. -/
theorem appendAll_events {σ : Type} (k : RealityKernel σ) (es : List Event) :
    (k.appendAll es).events = k.events ++ es := by
  induction es generalizing k with
  | nil => simp [RealityKernel.appendAll]
  | cons e es ih =>
    simp [RealityKernel.appendAll, RealityKernel.append] at ih ⊢
    rw [ih, List.append_assoc]
    rfl

/-- `appendAll` leaves the reducer unchanged. -/
theorem appendAll_reduce {σ : Type} (k : RealityKernel σ) (es : List Event) :
    (k.appendAll es).reduce = k.reduce := by
  induction es generalizing k with
  | nil => rfl
  | cons e es ih => exact ih (k.append e)

/-- `retroInsertAll` concatenates onto the branch log and keeps the reducer. -/
theorem retroInsertAll_eq {σ : Type} (b : RealityBranch σ) (es : List Event) :
    b.retroInsertAll es = ⟨b.log ++ es, b.reduce⟩ := by
  induction es generalizing b with
  | nil => simp [RealityBranch.retroInsertAll]
  | cons e es ih =>
    simp [RealityBranch.retroInsertAll] at ih ⊢
    rw [ih ((b.retroInsert e))]
    simp [RealityBranch.retroInsert]

/-- Forking with no cutoff copies the whole event list. -/
theorem fork_none_log {σ : Type} (k : RealityKernel σ) :
    (k.fork none).log = k.events := by
  unfold RealityKernel.fork
  have h : forkKeep none = fun _ => true := rfl
  rw [h, List.filter_true]

/-- The reducer carried by a fork is the reducer of the store. -/
theorem fork_reduce {σ : Type} (k : RealityKernel σ) (u : Option Int) :
    (k.fork u).reduce = k.reduce := rfl

/-- Ties in both directions of the comparator arise in particular between
events sharing timestamp and id. -/
theorem eventLe_of_same_id_t (a b : Event) (ht : a.t = b.t) (hid : a.id = b.id) :
    eventLe a b = true := by
  rw [eventLe_true_iff]
  exact Or.inr ⟨ht, Or.inr hid⟩

/-- A diff is empty exactly when every id of the right log occurs in the
left log. -/
theorem diff_eq_nil_iff {σ : Type} (x y : RealityBranch σ) :
    x.diff y = [] ↔ ∀ e ∈ y.log, e.id ∈ x.log.map Event.id := by
  unfold RealityBranch.diff
  rw [List.filter_eq_nil_iff]
  simp [List.elem_iff]

/-- The common part of two logs with pairwise distinct, cross-consistent ids
is the same collection on both sides, up to permutation. -/
theorem common_filter_perm {σ : Type} (a b : RealityBranch σ)
    (hna : (a.log.map Event.id).Nodup) (hnb : (b.log.map Event.id).Nodup)
    (hco : ∀ x ∈ a.log, ∀ y ∈ b.log, x.id = y.id → x = y) :
    (a.log.filter (fun e => (b.log.map Event.id).contains e.id)).Perm
      (b.log.filter (fun e => (a.log.map Event.id).contains e.id)) := by
  have hda : a.log.Nodup := List.Nodup.of_map _ hna
  have hdb : b.log.Nodup := List.Nodup.of_map _ hnb
  refine (List.perm_ext_iff_of_nodup (hda.filter _) (hdb.filter _)).mpr ?_
  intro x
  rw [List.mem_filter, List.mem_filter]
  simp only [List.elem_iff]
  constructor
  · rintro ⟨hxa, hxb⟩
    obtain ⟨y, hy, hyid⟩ := List.mem_map.mp hxb
    have hxy : x = y := hco x hxa y hy hyid.symm
    exact ⟨hxy ▸ hy, List.mem_map.mpr ⟨x, hxa, rfl⟩⟩
  · rintro ⟨hxb, hxa⟩
    obtain ⟨y, hy, hyid⟩ := List.mem_map.mp hxa
    have hyx : y = x := hco y hy x hxb hyid
    exact ⟨hyx ▸ hy, List.mem_map.mpr ⟨x, hxb, rfl⟩⟩

/-- Exchange lemma: if two lists split, up to permutation, into a common
part and a rest, then gluing each list to the rest of the other yields
permutation-equal collections. -/
theorem perm_union_swap {α : Type} (xc xr yc yr x y : List α)
    (hx : (xc ++ xr).Perm x) (hy : (yc ++ yr).Perm y) (hc : xc.Perm yc) :
    (x ++ yr).Perm (y ++ xr) := by
  have h1 : (x ++ yr).Perm ((xc ++ xr) ++ yr) :=
    List.Perm.append hx.symm (List.Perm.refl _)
  have h2 : ((xc ++ xr) ++ yr).Perm (xc ++ (xr ++ yr)) := by
    rw [List.append_assoc]
  have h3 : (xc ++ (xr ++ yr)).Perm (yc ++ (yr ++ xr)) :=
    List.Perm.append hc List.perm_append_comm
  have h4 : (yc ++ (yr ++ xr)).Perm ((yc ++ yr) ++ xr) := by
    rw [List.append_assoc]
  have h5 : ((yc ++ yr) ++ xr).Perm (y ++ xr) :=
    List.Perm.append hy (List.Perm.refl _)
  exact (((h1.trans h2).trans h3).trans h4).trans h5

/-- Under per-branch nodup ids and cross-branch consistency, the merged
collections of `a.merge b` and `b.merge a` are permutations of each other. -/
theorem merge_union_perm {σ : Type} (a b : RealityBranch σ)
    (hna : (a.log.map Event.id).Nodup) (hnb : (b.log.map Event.id).Nodup)
    (hco : ∀ x ∈ a.log, ∀ y ∈ b.log, x.id = y.id → x = y) :
    (a.log ++ a.diff b).Perm (b.log ++ b.diff a) := by
  have hcommon := common_filter_perm a b hna hnb hco
  have hsplitA := List.filter_append_perm
    (fun e => (b.log.map Event.id).contains e.id) a.log
  have hsplitB := List.filter_append_perm
    (fun e => (a.log.map Event.id).contains e.id) b.log
  have hdiffA : a.diff b
      = b.log.filter (fun e => !((a.log.map Event.id).contains e.id)) := rfl
  have hdiffB : b.diff a
      = a.log.filter (fun e => !((b.log.map Event.id).contains e.id)) := rfl
  rw [hdiffA, hdiffB]
  exact perm_union_swap _ _ _ _ _ _ hsplitA hsplitB hcommon

/-- The argument list of a merge of branches with per-branch nodup ids has
pairwise distinct ids. -/
theorem merge_arg_nodup_ids {σ : Type} (a b : RealityBranch σ)
    (hna : (a.log.map Event.id).Nodup) (hnb : (b.log.map Event.id).Nodup) :
    ((a.log ++ a.diff b).map Event.id).Nodup := by
  rw [List.map_append, List.nodup_append]
  refine ⟨hna, ?_, ?_⟩
  · have hsub : (a.diff b).Sublist b.log := by
      unfold RealityBranch.diff
      exact List.filter_sublist _
    exact List.Nodup.sublist (hsub.map Event.id) hnb
  · intro x hx1 hx2
    obtain ⟨y, hy, hyid⟩ := List.mem_map.mp hx2
    have := ((mem_diff_iff a b y).mp hy).2
    exact this (hyid ▸ hx1)

/-! Claim theorems. -/

/-- C3 counterexample: against an empty branch, `diff` of a branch whose log
holds the same event twice returns both copies, so the diff result can
contain duplicate entries, contrary to the claim. -/
theorem diff_nodup_fails_on_duplicate_ids :
    brNil.diff brTwo = [evDup, evDup] ∧ ¬ (brNil.diff brTwo).Nodup := by
  have h : brNil.diff brTwo = [evDup, evDup] := rfl
  refine ⟨h, ?_⟩
  rw [h]
  decide

/-- C3 (amended): `a.diff b` consists exactly of the events of the log of
`b` whose id does not occur among the ids of the log of `a`, kept in order
and multiplicity (a sublist of the log of `b`, hence nothing extraneous);
it has no duplicate entries whenever the log of `b` has pairwise distinct
ids. -/
theorem diff_exact_characterization {σ : Type} (a b : RealityBranch σ) :
    (∀ e : Event, e ∈ a.diff b ↔ (e ∈ b.log ∧ e.id ∉ a.log.map Event.id))
    ∧ (a.diff b).Sublist b.log
    ∧ ((b.log.map Event.id).Nodup → (a.diff b).Nodup) := by
  refine ⟨fun e => mem_diff_iff a b e, ?_, ?_⟩
  · unfold RealityBranch.diff
    exact List.filter_sublist _
  · intro hn
    unfold RealityBranch.diff
    exact (List.Nodup.of_map _ hn).filter _

/-- C3 witness: the characterization applied to two concrete singleton
branches with distinct ids, instantiated at a concrete event and with the
nodup hypothesis discharged. -/
theorem diff_exact_characterization_witness :
    (ev2 ∈ brW1.diff brW2 ↔ (ev2 ∈ brW2.log ∧ ev2.id ∉ brW1.log.map Event.id))
    ∧ (brW1.diff brW2).Sublist brW2.log
    ∧ (brW1.diff brW2).Nodup :=
  ⟨(diff_exact_characterization brW1 brW2).1 ev2,
    (diff_exact_characterization brW1 brW2).2.1,
    (diff_exact_characterization brW1 brW2).2.2 (by decide)⟩

/-- C4: the merged branch covers both inputs: `a.merge(b).diff(a)` and
`a.merge(b).diff(b)` are both empty, i.e. the id set of the merged log is a
superset of the id sets of both input logs. -/
theorem merge_closure {σ : Type} (a b : RealityBranch σ) :
    (a.merge b).diff a = [] ∧ (a.merge b).diff b = [] := by
  have hm := merge_log_perm a b
  refine ⟨(diff_eq_nil_iff _ _).mpr ?_, (diff_eq_nil_iff _ _).mpr ?_⟩
  · intro e he
    exact List.mem_map.mpr ⟨e, hm.mem_iff.mpr (List.mem_append_left _ he), rfl⟩
  · intro e he
    by_cases hid : e.id ∈ a.log.map Event.id
    · obtain ⟨x, hx, hxid⟩ := List.mem_map.mp hid
      exact List.mem_map.mpr ⟨x, hm.mem_iff.mpr (List.mem_append_left _ hx), hxid⟩
    · have hdm : e ∈ a.diff b := (mem_diff_iff a b e).mpr ⟨he, hid⟩
      exact List.mem_map.mpr ⟨e, hm.mem_iff.mpr (List.mem_append_right _ hdm), rfl⟩

/-- C6: `state()` is the left fold of the reducer, from the initial state,
over the canonically sorted snapshot of the branch log: the sorted snapshot
is a permutation of the log and is sorted with respect to the comparator
relation of §4.2.1. -/
theorem state_is_fold_of_canonical_sort {σ : Type} (b : RealityBranch σ) (i : σ) :
    b.state i = (jsSortEvents b.log).foldl b.reduce i
    ∧ (jsSortEvents b.log).Perm b.log
    ∧ List.Pairwise (fun x y => eventLe x y = true) (jsSortEvents b.log) :=
  ⟨rfl, jsSortEvents_perm _, jsSortEvents_sorted _⟩

/-- C7: forking records a branch whose log is a value copy of the events
with `t` at most the cutoff present at fork time, and a later append to the
store changes the stored events but leaves every previously forked branch,
and hence its `state()`, unchanged. -/
theorem fork_isolation {σ : Type} (w : KernelWorld σ) (u : Option Int)
    (e : Event) (i : σ) :
    ((w.doFork u).doAppend e).branches = (w.doFork u).branches
    ∧ (w.doFork u).branches
        = w.branches ++ [RealityBranch.mk (w.store.events.filter (forkKeep u)) w.store.reduce]
    ∧ ((w.doFork u).doAppend e).store.events = w.store.events ++ [e]
    ∧ (((w.doFork u).doAppend e).branches.map (fun bb => bb.state i))
        = ((w.doFork u).branches.map (fun bb => bb.state i)) :=
  ⟨rfl, rfl, rfl, rfl⟩

/-- C8: when the reducer fails on an event of the sorted log, `state()`
returns exactly that failure: the fold is aborted at the failing event, the
error is not caught and no default state is substituted, regardless of the
remaining events. -/
theorem reducer_failure_propagates {σ ε : Type} (log pre post : List Event)
    (ev : Event) (r : σ → Event → Except ε σ) (i s : σ) (ex : ε)
    (hsplit : jsSortEvents log = pre ++ ev :: post)
    (hpre : pre.foldlM r i = Except.ok s)
    (hfail : r s ev = Except.error ex) :
    stateExc log r i = Except.error ex := by
  unfold stateExc
  rw [hsplit, List.foldlM_append, hpre]
  show List.foldlM r s (ev :: post) = Except.error ex
  rw [List.foldlM_cons, hfail]
  rfl

/-- C8 witness: a reducer failing on the single event of a branch makes the
materialization return that error. -/
theorem reducer_failure_propagates_witness :
    stateExc [ev1] failR 0 = Except.error "boom" :=
  reducer_failure_propagates [ev1] [] [] ev1 failR 0 0 "boom"
    (List.mergeSort_of_sorted (List.pairwise_singleton _ _)) rfl rfl

/-- C9: merge is left biased on id collisions: when both branches hold an
event with the same id, the merged log keeps the copy of the left branch,
and the copy of the right branch is excluded whenever it is not itself an
event of the left log. -/
theorem merge_left_biased_on_id_collision {σ : Type} (a b : RealityBranch σ)
    (x y : Event) (hx : x ∈ a.log) (_hy : y ∈ b.log) (hid : x.id = y.id) :
    x ∈ (a.merge b).log ∧ (y ∉ a.log → y ∉ (a.merge b).log) := by
  have hm := merge_log_perm a b
  constructor
  · exact hm.mem_iff.mpr (List.mem_append_left _ hx)
  · intro hyn hmem
    rcases List.mem_append.mp (hm.mem_iff.mp hmem) with h | h
    · exact hyn h
    · exact ((mem_diff_iff a b y).mp h).2 (List.mem_map.mpr ⟨x, hx, hid⟩)

/-- C9 witness: two singleton branches over the shared id "dup": the merge
keeps the event of the left branch and drops the one of the right branch. -/
theorem merge_left_biased_on_id_collision_witness :
    evA9 ∈ (brL.merge brR).log ∧ evB9 ∉ (brL.merge brR).log :=
  ⟨(merge_left_biased_on_id_collision brL brR evA9 evB9 (by decide) (by decide) rfl).1,
    (merge_left_biased_on_id_collision brL brR evA9 evB9 (by decide) (by decide) rfl).2
      (by decide)⟩

/-- C10: a branch diffed against itself is empty, even with duplicate ids in
its log, and merging a branch with itself does not change the materialized
state. -/
theorem self_diff_empty_and_self_merge_identity {σ : Type} (b : RealityBranch σ)
    (i : σ) :
    b.diff b = [] ∧ (b.merge b).state i = b.state i := by
  have hd : b.diff b = []  :=
    (diff_eq_nil_iff b b).mpr (fun e he => List.mem_map.mpr ⟨e, he, rfl⟩)
  refine ⟨hd, ?_⟩
  show (jsSortEvents (jsSortEvents (b.log ++ b.diff b))).foldl b.reduce i
      = (jsSortEvents b.log).foldl b.reduce i
  rw [hd, List.append_nil, jsSortEvents_idem]

/-- C5: evaluation of the embedded comparator at the failing input: under
the code-point model of `localeCompare`, the event with id "B" sorts before
the event with id "a" on a timestamp tie.  The actual host
`String.prototype.localeCompare` is locale- and implementation-defined
(ICU default collation orders "a" before "B"), so the source does not
implement the fixed implementation-independent code-point tie-break this
model, and the claim, prescribe. -/
theorem tiebreak_codepoint_model_order :
    eventLe evB5 evA5 = true ∧ eventCmp evB5 evA5 = -1 := by
  have h : ("B" : String) < "a" := by
    rw [String.lt_iff_toList_lt]
    decide
  constructor
  · rw [eventLe_true_iff]
    exact Or.inr ⟨rfl, Or.inl h⟩
  · unfold eventCmp localeCompare
    rw [if_pos (show evB5.t = evA5.t from rfl), if_pos (show evB5.id < evA5.id from h)]

/-- C1 counterexample: with the same event twice in one branch and once in
the other, the two merge directions materialize different states (2 versus 1
with a counting reducer), so merge commutativity on state fails for
arbitrary branches sharing a reducer. -/
theorem merge_comm_state_fails_on_duplicate_ids :
    (brTwo.merge brOne).state 0 = 2 ∧ (brOne.merge brTwo).state 0 = 1
    ∧ (brTwo.merge brOne).state 0 ≠ (brOne.merge brTwo).state 0 := by
  have hpair2 : List.Pairwise (fun x y => eventLe x y = true) [evDup, evDup] := by
    refine List.pairwise_cons.mpr ⟨?_, List.pairwise_singleton _ _⟩
    intro y hy
    rw [List.mem_singleton] at hy
    subst hy
    exact eventLe_of_same_id_t evDup evDup rfl rfl
  have hs2 : jsSortEvents [evDup, evDup] = [evDup, evDup] :=
    List.mergeSort_of_sorted hpair2
  have hs1 : jsSortEvents [evDup] = [evDup] :=
    List.mergeSort_of_sorted (List.pairwise_singleton _ _)
  have hd21 : brTwo.diff brOne = [] := rfl
  have hd12 : brOne.diff brTwo = [] := rfl
  have h2 : (brTwo.merge brOne).state 0 = 2 := by
    show (jsSortEvents (jsSortEvents (brTwo.log ++ brTwo.diff brOne))).foldl countR 0 = 2
    rw [hd21, List.append_nil]
    show (jsSortEvents (jsSortEvents [evDup, evDup])).foldl countR 0 = 2
    rw [hs2, hs2]
    rfl
  have h1 : (brOne.merge brTwo).state 0 = 1 := by
    show (jsSortEvents (jsSortEvents (brOne.log ++ brOne.diff brTwo))).foldl countR 0 = 1
    rw [hd12, List.append_nil]
    show (jsSortEvents (jsSortEvents [evDup])).foldl countR 0 = 1
    rw [hs1, hs1]
    rfl
  refine ⟨h2, h1, ?_⟩
  rw [h2, h1]
  decide

/-- C1 (amended): merge commutativity on state holds for branches sharing
the same reducer whose logs have pairwise distinct ids and agree on every
shared id: `a.merge(b).state()` equals `b.merge(a).state()`. -/
theorem merge_comm_state_of_nodup_ids {σ : Type} (a b : RealityBranch σ) (i : σ)
    (hr : a.reduce = b.reduce)
    (hna : (a.log.map Event.id).Nodup) (hnb : (b.log.map Event.id).Nodup)
    (hco : ∀ x ∈ a.log, ∀ y ∈ b.log, x.id = y.id → x = y) :
    (a.merge b).state i = (b.merge a).state i := by
  have hperm : (a.log ++ a.diff b).Perm (b.log ++ b.diff a) :=
    merge_union_perm a b hna hnb hco
  have hnm : ((a.log ++ a.diff b).map Event.id).Nodup :=
    merge_arg_nodup_ids a b hna hnb
  have hsort : jsSortEvents (a.log ++ a.diff b) = jsSortEvents (b.log ++ b.diff a) :=
    jsSortEvents_eq_of_perm _ _ hperm hnm
  show (jsSortEvents (jsSortEvents (a.log ++ a.diff b))).foldl a.reduce i
      = (jsSortEvents (jsSortEvents (b.log ++ b.diff a))).foldl b.reduce i
  rw [jsSortEvents_idem, jsSortEvents_idem, hsort, hr]

/-- C1 witness: merge commutativity on state at two concrete singleton
branches with distinct ids and a shared counting reducer. -/
theorem merge_comm_state_of_nodup_ids_witness :
    (brW1.merge brW2).state 0 = (brW2.merge brW1).state 0 :=
  merge_comm_state_of_nodup_ids brW1 brW2 0 rfl (by decide) (by decide) (by decide)

/-- C2 counterexample: two distinct events sharing id and timestamp, fed to
a store in the two possible orders, materialize different states under a
last-payload reducer: the stable sort preserves insertion order on
comparator ties, so order independence fails for arbitrary event sets. -/
theorem order_independence_fails_on_tied_events :
    [evP1, evP2].Perm [evP2, evP1]
    ∧ (((RealityKernel.mk [] lastR).appendAll [evP1, evP2]).fork none).state "" = "2"
    ∧ (((RealityKernel.mk [] lastR).appendAll [evP2, evP1]).fork none).state "" = "1"
    ∧ (((RealityKernel.mk [] lastR).appendAll [evP1, evP2]).fork none).state ""
      ≠ (((RealityKernel.mk [] lastR).appendAll [evP2, evP1]).fork none).state "" := by
  have htie12 : eventLe evP1 evP2 = true := eventLe_of_same_id_t evP1 evP2 rfl rfl
  have htie21 : eventLe evP2 evP1 = true := eventLe_of_same_id_t evP2 evP1 rfl rfl
  have hpair12 : List.Pairwise (fun x y => eventLe x y = true) [evP1, evP2] := by
    refine List.pairwise_cons.mpr ⟨?_, List.pairwise_singleton _ _⟩
    intro y hy
    rw [List.mem_singleton] at hy
    subst hy
    exact htie12
  have hpair21 : List.Pairwise (fun x y => eventLe x y = true) [evP2, evP1] := by
    refine List.pairwise_cons.mpr ⟨?_, List.pairwise_singleton _ _⟩
    intro y hy
    rw [List.mem_singleton] at hy
    subst hy
    exact htie21
  have hs12 : jsSortEvents [evP1, evP2] = [evP1, evP2] :=
    List.mergeSort_of_sorted hpair12
  have hs21 : jsSortEvents [evP2, evP1] = [evP2, evP1] :=
    List.mergeSort_of_sorted hpair21
  have h12 : (((RealityKernel.mk [] lastR).appendAll [evP1, evP2]).fork none).state "" = "2" := by
    unfold RealityBranch.state
    rw [fork_reduce, appendAll_reduce, fork_none_log, appendAll_events,
      List.nil_append, hs12]
    rfl
  have h21 : (((RealityKernel.mk [] lastR).appendAll [evP2, evP1]).fork none).state "" = "1" := by
    unfold RealityBranch.state
    rw [fork_reduce, appendAll_reduce, fork_none_log, appendAll_events,
      List.nil_append, hs21]
    rfl
  refine ⟨List.Perm.swap evP2 evP1 [], h12, h21, ?_⟩
  rw [h12, h21]
  decide

/-- C2 (amended): order independence holds for event collections with
pairwise distinct ids: appending the same events to a store in any
permutation, or retro-inserting them into a branch in any permutation,
materializes the same state. -/
theorem order_independence_of_nodup_ids {σ : Type} (k : RealityKernel σ)
    (b : RealityBranch σ) (i j : σ) (es₁ es₂ : List Event) (hp : es₁.Perm es₂)
    (hnk : ((k.events ++ es₁).map Event.id).Nodup)
    (hnb : ((b.log ++ es₁).map Event.id).Nodup) :
    ((k.appendAll es₁).fork none).state i = ((k.appendAll es₂).fork none).state i
    ∧ (b.retroInsertAll es₁).state j = (b.retroInsertAll es₂).state j := by
  constructor
  · unfold RealityBranch.state
    rw [fork_reduce, appendAll_reduce, fork_reduce, appendAll_reduce,
      fork_none_log, appendAll_events, fork_none_log, appendAll_events,
      jsSortEvents_eq_of_perm _ _ (List.Perm.append_left k.events hp) hnk]
  · unfold RealityBranch.state
    rw [retroInsertAll_eq, retroInsertAll_eq]
    show (jsSortEvents (b.log ++ es₁)).foldl b.reduce j
        = (jsSortEvents (b.log ++ es₂)).foldl b.reduce j
    rw [jsSortEvents_eq_of_perm _ _ (List.Perm.append_left b.log hp) hnb]

/-- C2 witness: order independence at two concrete events with distinct ids,
appended to an empty store and retro-inserted into an empty branch in both
orders. -/
theorem order_independence_of_nodup_ids_witness :
    (((RealityKernel.mk [] lastR).appendAll [ev1, ev2]).fork none).state ""
      = (((RealityKernel.mk [] lastR).appendAll [ev2, ev1]).fork none).state ""
    ∧ ((RealityBranch.mk [] lastR).retroInsertAll [ev1, ev2]).state ""
      = ((RealityBranch.mk [] lastR).retroInsertAll [ev2, ev1]).state "" :=
  order_independence_of_nodup_ids (RealityKernel.mk [] lastR)
    (RealityBranch.mk [] lastR) "" "" [ev1, ev2] [ev2, ev1]
    (List.Perm.swap ev2 ev1 []) (by decide) (by decide)
